import Mathlib

/-!
Verification development for the secret-santa assignment engine
(`src/main.py`).  The Python functions `compute_all_possibilities`,
`get_santas_list` and `save_people` are shallowly embedded as executable
Lean functions; YAML file access is modelled as association-list lookup,
`sys.exit(1)` as `none`, and the single call to `random.shuffle` as an
explicit already-shuffled argument (constrained by a `List.Perm`
hypothesis where relevant).
-/

namespace SecretSanta

/-- A participant as read from the YAML input: a `(name, contact)` tuple. -/
abbrev Person := String × String

/-- An ordered `(giver, receiver)` candidate pair. -/
abbrev Pair := String × String

/-- Embeds `next((person for person in list_people if person[0] == santa), None)`
(main.py lines 261-263 and 269-274): first person whose name matches, else `none`. -/
def lookupP (people : List Person) (s : String) : Option Person :=
  people.find? (fun p => p.1 == s)

/-- Names of the non-`none` entries of a produced santas list, in order. -/
def resNames (res : List (Option Person)) : List String :=
  res.filterMap (fun o => o.map Prod.fst)

/-- Embeds `list(permutations(names, 2))` (main.py line 184): all ordered pairs of
distinct names.  For the duplicate-free name lists the program assumes, this agrees
with `itertools.permutations` elementwise and in order. -/
def perms2 (names : List String) : List Pair :=
  names.flatMap (fun a => (names.filter (fun b => !(b == a))).map (fun b => (a, b)))

/-- Embeds the give-to pairs derived from one recorded edition
(main.py lines 196-199): position `i` paired with position `(i+1) % n`. -/
def cyclePairs (names : List String) : List Pair :=
  names.zip (names.rotate 1)

/-- Embeds reading one past edition from `output_mail_list.yaml` via `get_people`
(main.py lines 145-146 and 189-194): the parsed file is an association list keyed
by year; a missing key is the `KeyError` path, modelled as `none`. -/
def lookupYear (hist : List (Nat × List Person)) (y : Nat) : Option (List Person) :=
  (hist.find? (fun e => e.1 == y)).map Prod.snd

/-- Embeds the unwanted-pair accumulation (main.py lines 205-208): one
`(giver, target)` pair per listed target. -/
def unwantedPairs (unw : List (String × List String)) : List Pair :=
  unw.flatMap (fun u => u.2.map (fun t => (u.1, t)))

/-- The years `current_year - i - 1` for `i in range(nb_years)` (main.py line 188). -/
def histYears (curYear nbYears : Nat) : List Nat :=
  (List.range nbYears).map (fun i => curYear - i - 1)

/-- Embeds the history loop of `compute_all_possibilities` (main.py lines 188-202):
for each requested year, load that edition (propagating the `KeyError` abort as
`none`) and filter out its cyclic give-to pairs. -/
def removeOldLoop (hist : List (Nat × List Person)) :
    List Nat → List Pair → Option (List Pair)
  | [], allp => some allp
  | y :: ys, allp =>
    match lookupYear hist y with
    | none => none
    | some old =>
        removeOldLoop hist ys
          (allp.filter (fun p => !((cyclePairs (old.map Prod.fst)).contains p)))

/-- Embeds `compute_all_possibilities` (main.py lines 162-212): all ordered pairs of
distinct participant names, minus each requested past edition's cyclic pairs, minus
the unwanted pairs.  `none` models the uncaught `KeyError` when a year entry is
absent from the history file. -/
def computeAllPossibilities (people : List Person) (hist : List (Nat × List Person))
    (unw : List (String × List String)) (nbYears curYear : Nat) : Option (List Pair) :=
  match removeOldLoop hist (histYears curYear nbYears) (perms2 (people.map Prod.fst)) with
  | none => none
  | some allp => some (allp.filter (fun p => !((unwantedPairs unw).contains p)))

/-- Helper for the termination of the chain loop: filtering with a predicate that
rejects some member strictly shrinks the list. -/
theorem length_filter_lt_of_mem {α : Type} (p : α → Bool) {l : List α} {a : α}
    (ha : a ∈ l) (hpa : p a = false) : (l.filter p).length < l.length := by
  induction l with
  | nil => cases ha
  | cons x xs ih =>
    rcases List.mem_cons.mp ha with h | h
    · subst h
      rw [List.filter_cons, hpa]
      exact Nat.lt_succ_of_le (List.length_filter_le _ _)
    · rw [List.filter_cons]
      cases hx : p x
      · exact Nat.lt_succ_of_lt (ih h)
      · simpa using Nat.succ_lt_succ (ih h)

/-- Embeds the non-`first_run` iterations of the inner `while` of
`get_santas_list` (main.py lines 246-274), structurally recursive on a fuel
bound: `santa` becomes the pending `next_santa`, the first pair whose source is
`santa` fixes the new `next_santa` (a failed `next(...)` breaks the loop), the
matched person is appended, every pair mentioning `santa` is dropped, and once
`len(list_santas) == len(list_people) - 1` the person named `next_santa` is
appended as well.  The fuel only needs to dominate `pl.length`, since each
iteration removes at least the pair it followed. -/
def chainLoopAux (people : List Person) :
    Nat → List (Option Person) → List Pair → String → List (Option Person) × List Pair
  | 0, santas, pl, _ => (santas, pl)
  | fuel + 1, santas, pl, nextS =>
    if santas.length < people.length ∧ pl ≠ [] then
      match pl.find? (fun q => q.1 == nextS) with
      | none => (santas, pl)
      | some q =>
        let santas1 := santas ++ [lookupP people nextS]
        let pl1 := pl.filter (fun r => !(r.1 == nextS || r.2 == nextS))
        let santas2 :=
          if santas1.length = people.length - 1
          then santas1 ++ [lookupP people q.2] else santas1
        chainLoopAux people fuel santas2 pl1 q.2
    else (santas, pl)

/-- The inner `while` loop from the state where `first_run` is already `False`;
fuel `pl.length` suffices because every iteration consumes at least one pair. -/
def chainLoop (people : List Person) (santas : List (Option Person))
    (pl : List Pair) (nextS : String) : List (Option Person) × List Pair :=
  chainLoopAux people pl.length santas pl nextS

/-- Embeds one full attempt of the inner `while` of `get_santas_list`
(main.py lines 246-274) starting from `first_run = True` and an empty
`list_santas`: the head pair seeds `santa`/`next_santa`, then the loop proceeds
as `chainLoop`.  An empty `possible_list` or an empty participant list skips the
loop body entirely. -/
def attemptP (people : List Person) : List Pair → List (Option Person) × List Pair
  | [] => ([], [])
  | q :: rest =>
    if 0 < people.length then
      let santas1 := [lookupP people q.1]
      let pl1 := (q :: rest).filter (fun r => !(r.1 == q.1 || r.2 == q.1))
      let santas2 :=
        if santas1.length = people.length - 1
        then santas1 ++ [lookupP people q.2] else santas1
      chainLoop people santas2 pl1 q.2
    else ([], q :: rest)

/-- Embeds the outer retry loop of `get_santas_list` (main.py lines 244-287):
run one attempt; on full length stop with success, otherwise reset
`list_santas`/`first_run` and retry on the *leftover* pair list.  Returns the
outcome (`none` models the `sys.exit(1)` failure path), the final pair list,
and the number of attempts performed. -/
def searchLoop (people : List Person) :
    List Pair → Nat → Option (List (Option Person)) × List Pair × Nat
  | pl, 0 => (none, pl, 0)
  | pl, fuel + 1 =>
    let att := attemptP people pl
    if att.1.length = people.length then (some att.1, att.2, 1)
    else
      let rec2 := searchLoop people att.2 fuel
      (rec2.1, rec2.2.1, rec2.2.2 + 1)

/-- `max_iteration` (main.py line 229). -/
def maxIteration : Nat := 1000

/-- Embeds the shuffling branch of `get_santas_list` (main.py lines 237-287)
after the single `random.shuffle(possible_list)` call: `shuffled` is the
already-shuffled candidate list; `some` is the returned `list_santas`, `none`
the `sys.exit(1)` abort. -/
def santasList (people : List Person) (shuffled : List Pair) :
    Option (List (Option Person)) :=
  (searchLoop people shuffled maxIteration).1

/-- Embeds the history update of `save_people` (main.py lines 310-312):
`data.update({year: assignment})` replaces the value of an existing year key in
place and appends a missing key at the end. -/
def savePeople (data : List (Nat × List Person)) (year : Nat)
    (listPeople : List Person) : List (Nat × List Person) :=
  if data.any (fun e => e.1 == year) then
    data.map (fun e => if e.1 == year then (e.1, listPeople) else e)
  else data ++ [(year, listPeople)]

/-- One run of the retry loop of `get_santas_list` as a big-step relation on the
loop state (remaining fuel, current pair list): with the shuffled list fixed at
the start, each derivation is one execution trace of the search. -/
inductive RunSearch (people : List Person) :
    List Pair → Nat → Option (List (Option Person)) → Prop where
  | exhausted (pl : List Pair) : RunSearch people pl 0 none
  | success {pl : List Pair} {fuel : Nat} {santas : List (Option Person)}
      {plRest : List Pair}
      (hatt : attemptP people pl = (santas, plRest))
      (hlen : santas.length = people.length) :
      RunSearch people pl (fuel + 1) (some santas)
  | failure {pl : List Pair} {fuel : Nat} {santas : List (Option Person)}
      {plRest : List Pair} {r : Option (List (Option Person))}
      (hatt : attemptP people pl = (santas, plRest))
      (hlen : santas.length ≠ people.length)
      (hrec : RunSearch people plRest fuel r) :
      RunSearch people pl (fuel + 1) r

/-! ### Helper lemmas about the embedded functions -/

theorem lookupP_eq_some (people : List Person) (s : String)
    (h : s ∈ people.map Prod.fst) :
    ∃ per, lookupP people s = some per ∧ per.1 = s ∧ per ∈ people := by
  induction people with
  | nil => simp at h
  | cons p ps ih =>
    by_cases hp : p.1 = s
    · exact ⟨p, by simp [lookupP, hp], hp, List.mem_cons_self _ _⟩
    · have hs : s ∈ ps.map Prod.fst := by
        rcases List.mem_map.mp h with ⟨q, hq, hq1⟩
        rcases List.mem_cons.mp hq with rfl | hq'
        · exact absurd hq1 hp
        · exact List.mem_map.mpr ⟨q, hq', hq1⟩
      rcases ih hs with ⟨per, hfind, hname, hmem⟩
      refine ⟨per, ?_, hname, List.mem_cons_of_mem _ hmem⟩
      simpa [lookupP, List.find?_cons, hp] using hfind

theorem map_lookupP (people : List Person) (c : List String)
    (h : ∀ s ∈ c, s ∈ people.map Prod.fst) :
    ∃ ps : List Person, c.map (lookupP people) = ps.map some ∧
      ps.map Prod.fst = c ∧ ∀ x ∈ ps, x ∈ people := by
  induction c with
  | nil => exact ⟨[], rfl, rfl, by simp⟩
  | cons s c ih =>
    rcases lookupP_eq_some people s (h s (List.mem_cons_self _ _)) with
      ⟨per, hfind, hname, hmem⟩
    rcases ih (fun t ht => h t (List.mem_cons_of_mem _ ht)) with ⟨ps, h1, h2, h3⟩
    refine ⟨per :: ps, ?_, ?_, ?_⟩
    · simp [hfind, h1]
    · simp [hname, h2]
    · intro x hx
      rcases List.mem_cons.mp hx with rfl | hx'
      · exact hmem
      · exact h3 x hx'

theorem chainLoopAux_sublist (people : List Person) :
    ∀ (fuel : Nat) (santas : List (Option Person)) (pl : List Pair) (nextS : String),
      List.Sublist (chainLoopAux people fuel santas pl nextS).2 pl := by
  intro fuel
  induction fuel with
  | zero => intro santas pl nextS; exact List.Sublist.refl pl
  | succ fuel ih =>
    intro santas pl nextS
    rw [chainLoopAux]
    by_cases hg : santas.length < people.length ∧ pl ≠ []
    · rw [if_pos hg]
      cases hfind : pl.find? (fun q => q.1 == nextS) with
      | none => exact List.Sublist.refl pl
      | some q =>
        exact ((ih _ _ _).trans (List.filter_sublist pl))
    · rw [if_neg hg]

theorem attemptP_sublist (people : List Person) (pl : List Pair) :
    List.Sublist (attemptP people pl).2 pl := by
  cases pl with
  | nil => exact List.Sublist.refl []
  | cons q rest =>
    rw [attemptP]
    by_cases hp : 0 < people.length
    · rw [if_pos hp]
      exact (chainLoopAux_sublist people _ _ _ _).trans (List.filter_sublist _)
    · rw [if_neg hp]

theorem searchLoop_pl_sublist (people : List Person) :
    ∀ (fuel : Nat) (pl : List Pair),
      List.Sublist (searchLoop people pl fuel).2.1 pl := by
  intro fuel
  induction fuel with
  | zero => intro pl; exact List.Sublist.refl pl
  | succ fuel ih =>
    intro pl
    rw [searchLoop]
    by_cases hlen : (attemptP people pl).1.length = people.length
    · simpa only [if_pos hlen] using attemptP_sublist people pl
    · simp only [if_neg hlen]
      exact (ih (attemptP people pl).2).trans (attemptP_sublist people pl)

theorem searchLoop_count_le (people : List Person) :
    ∀ (fuel : Nat) (pl : List Pair), (searchLoop people pl fuel).2.2 ≤ fuel := by
  intro fuel
  induction fuel with
  | zero => intro pl; exact Nat.le_refl 0
  | succ fuel ih =>
    intro pl
    rw [searchLoop]
    by_cases hlen : (attemptP people pl).1.length = people.length
    · simp only [if_pos hlen]
      exact Nat.succ_le_succ (Nat.zero_le fuel)
    · simp only [if_neg hlen]
      exact Nat.succ_le_succ (ih (attemptP people pl).2)

theorem attemptP_nil_pl (people : List Person) :
    attemptP people [] = ([], []) := rfl

theorem searchLoop_empty_pl (people : List Person) (hp : people.length ≠ 0) :
    ∀ fuel : Nat, searchLoop people [] fuel = (none, [], fuel) := by
  intro fuel
  induction fuel with
  | zero => rfl
  | succ fuel ih =>
    rw [searchLoop, attemptP_nil_pl]
    have h0 : ¬ ([] : List (Option Person)).length = people.length := by
      simpa using fun h => hp h.symm
    simp only [if_neg h0, ih]

theorem searchLoop_some_inv (people : List Person) :
    ∀ (fuel : Nat) (pl : List Pair) (santas : List (Option Person)),
      (searchLoop people pl fuel).1 = some santas →
      ∃ plIn, (∀ q ∈ plIn, q ∈ pl) ∧ (attemptP people plIn).1 = santas ∧
        santas.length = people.length := by
  intro fuel
  induction fuel with
  | zero => intro pl santas h; exact absurd h (by simp [searchLoop])
  | succ fuel ih =>
    intro pl santas h
    rw [searchLoop] at h
    by_cases hlen : (attemptP people pl).1.length = people.length
    · rw [if_pos hlen] at h
      simp only at h
      refine ⟨pl, fun q hq => hq, Option.some.inj h, ?_⟩
      rw [← Option.some.inj h]; exact hlen
    · rw [if_neg hlen] at h
      simp only at h
      rcases ih (attemptP people pl).2 santas h with ⟨plIn, hsub, hval, hl⟩
      exact ⟨plIn,
        fun q hq => (attemptP_sublist people pl).subset (hsub q hq), hval, hl⟩

/-- Invariant of the inner chain loop: starting from a chain `c` of distinct,
known participant names whose consecutive pairs are edges of `pl0`, with a
candidate list drawn from `pl0` that mentions no placed name, the loop returns a
chain with the same properties, and only ever removes candidate pairs. -/
theorem chainLoopAux_inv (people : List Person) (pl0 : List Pair)
    (hGood : ∀ q ∈ pl0, q.1 ∈ people.map Prod.fst ∧
      q.2 ∈ people.map Prod.fst ∧ q.1 ≠ q.2) :
    ∀ (fuel : Nat) (pl : List Pair) (c : List String) (nextS : String),
      pl.length ≤ fuel →
      (∀ q ∈ pl, q ∈ pl0) →
      (c.length < people.length → ∀ q ∈ pl, q.1 ∉ c ∧ q.2 ∉ c) →
      (∀ s ∈ c, s ∈ people.map Prod.fst) →
      c.Nodup →
      List.Chain' (fun a b => (a, b) ∈ pl0) c →
      (c.length < people.length → ∀ x, c.getLast? = some x → (x, nextS) ∈ pl0) →
      ∃ c' pl',
        chainLoopAux people fuel (c.map (lookupP people)) pl nextS
          = (c'.map (lookupP people), pl') ∧
        (∀ s ∈ c', s ∈ people.map Prod.fst) ∧ c'.Nodup ∧
        List.Chain' (fun a b => (a, b) ∈ pl0) c' ∧ List.Sublist pl' pl := by
  intro fuel
  induction fuel with
  | zero =>
    intro pl c nextS hlen _ _ hmem hnd hch _
    have hpl : pl = [] := List.length_eq_zero.mp (Nat.le_zero.mp hlen)
    subst hpl
    exact ⟨c, [], rfl, hmem, hnd, hch, List.Sublist.refl []⟩
  | succ fuel ih =>
    intro pl c nextS hlen hsub havoid hmem hnd hch hlast
    rw [chainLoopAux]
    by_cases hg : (c.map (lookupP people)).length < people.length ∧ pl ≠ []
    · rw [if_pos hg]
      cases hfind : pl.find? (fun q => q.1 == nextS) with
      | none => exact ⟨c, pl, rfl, hmem, hnd, hch, List.Sublist.refl pl⟩
      | some q =>
        dsimp only
        have hqmem : q ∈ pl := List.mem_of_find?_eq_some hfind
        have hq1 : q.1 = nextS := by
          have := List.find?_some hfind
          simpa using this
        have hq0 : q ∈ pl0 := hsub q hqmem
        obtain ⟨hq1n, hq2n, hqne⟩ := hGood q hq0
        have hclen : c.length < people.length := by
          simpa using hg.1
        have hfresh : q.1 ∉ c ∧ q.2 ∉ c := havoid hclen q hqmem
        have hnextc : nextS ∉ c := hq1 ▸ hfresh.1
        have hnextn : nextS ∈ people.map Prod.fst := hq1 ▸ hq1n
        have hqpair : ((nextS, q.2) : Pair) ∈ pl0 := by
          have : ((q.1, q.2) : Pair) = q := rfl
          rw [← hq1]; rw [this]; exact hq0
        have hq2notc : q.2 ∉ c := hfresh.2
        have hq2ne : q.2 ≠ nextS := fun h => hqne (hq1.trans h.symm)
        -- properties of the filtered list
        set pl1 := pl.filter (fun r => !(r.1 == nextS || r.2 == nextS)) with hpl1
        have hpl1len : pl1.length ≤ fuel := by
          have hlt : pl1.length < pl.length := by
            apply length_filter_lt_of_mem _ hqmem
            simp [hq1]
          omega
        have hpl1sub : ∀ r ∈ pl1, r ∈ pl0 :=
          fun r hr => hsub r (List.mem_filter.mp hr).1
        have hpl1avoid : ∀ r ∈ pl1, r.1 ∉ c ∧ r.2 ∉ c ∧ r.1 ≠ nextS ∧ r.2 ≠ nextS := by
          intro r hr
          obtain ⟨hrpl, hrp⟩ := List.mem_filter.mp hr
          have h1 := havoid hclen r hrpl
          have h2 : ¬(r.1 = nextS) ∧ ¬(r.2 = nextS) := by
            simpa using hrp
          exact ⟨h1.1, h1.2, h2.1, h2.2⟩
        -- chain extended by nextS
        have hch1 : List.Chain' (fun a b => (a, b) ∈ pl0) (c ++ [nextS]) := by
          rw [List.chain'_append]
          refine ⟨hch, List.chain'_singleton nextS, ?_⟩
          intro x hx y hy
          have hy' : nextS = y := by simpa using hy
          subst hy'
          exact hlast hclen x (by simpa using hx)
        have hnd1 : (c ++ [nextS]).Nodup := by
          simp [List.nodup_append, hnd, hnextc]
        have hmem1 : ∀ s ∈ c ++ [nextS], s ∈ people.map Prod.fst := by
          intro s hs
          rcases List.mem_append.mp hs with h | h
          · exact hmem s h
          · have : s = nextS := by simpa using h
            subst this; exact hnextn
        by_cases hfin :
            (c.map (lookupP people) ++ [lookupP people nextS]).length
              = people.length - 1
        · rw [if_pos hfin]
          have hfin' : c.length + 1 = people.length - 1 := by
            simpa using hfin
          -- the final extra append: chain c ++ [nextS] ++ [q.2] is complete
          have hndf : ((c ++ [nextS]) ++ [q.2]).Nodup := by
            simp [List.nodup_append, hnd, hnextc, hq2notc, Ne.symm hq2ne]
          have hchf : List.Chain' (fun a b => (a, b) ∈ pl0) ((c ++ [nextS]) ++ [q.2]) := by
            rw [List.chain'_append]
            refine ⟨hch1, List.chain'_singleton _, ?_⟩
            intro x hx y hy
            have hy' : q.2 = y := by simpa using hy
            have hx' : nextS = x := by
              rw [List.getLast?_concat] at hx
              simpa using hx
            subst hy'; subst hx'
            exact hqpair
          have hmemf : ∀ s ∈ (c ++ [nextS]) ++ [q.2], s ∈ people.map Prod.fst := by
            intro s hs
            rcases List.mem_append.mp hs with h | h
            · exact hmem1 s h
            · have : s = q.2 := by simpa using h
              subst this; exact hq2n
          have hlenf : ((c ++ [nextS]) ++ [q.2]).length = people.length := by
            simp only [List.length_append, List.length_cons, List.length_nil]
            omega
          obtain ⟨c', pl', heq, hp1, hp2, hp3, hp4⟩ :=
            ih pl1 ((c ++ [nextS]) ++ [q.2]) q.2 hpl1len hpl1sub
              (fun habs _ _ => absurd habs (by omega))
              hmemf hndf hchf
              (fun habs _ _ => absurd habs (by omega))
          refine ⟨c', pl', ?_, hp1, hp2, hp3, hp4.trans (List.filter_sublist pl)⟩
          rw [← heq]
          simp [List.map_append]
        · rw [if_neg hfin]
          have hlastn : (c ++ [nextS]).length < people.length →
              ∀ x, (c ++ [nextS]).getLast? = some x → (x, q.2) ∈ pl0 := by
            intro _ x hx
            rw [List.getLast?_concat] at hx
            have hx' : nextS = x := by simpa using hx
            subst hx'
            exact hqpair
          obtain ⟨c', pl', heq, hp1, hp2, hp3, hp4⟩ :=
            ih pl1 (c ++ [nextS]) q.2 hpl1len hpl1sub
              (fun _ r hr =>
                ⟨by
                  have h := hpl1avoid r hr
                  simp [List.mem_append, h.1, h.2.2.1],
                 by
                  have h := hpl1avoid r hr
                  simp [List.mem_append, h.2.1, h.2.2.2]⟩)
              hmem1 hnd1 hch1 hlastn
          refine ⟨c', pl', ?_, hp1, hp2, hp3, hp4.trans (List.filter_sublist pl)⟩
          rw [← heq]
          simp [List.map_append]
    · rw [if_neg hg]
      exact ⟨c, pl, rfl, hmem, hnd, hch, List.Sublist.refl pl⟩

/-- One full attempt started with `first_run = True` produces a duplicate-free
chain of known participant names whose consecutive pairs are edges of `pl0`,
and only ever removes candidate pairs. -/
theorem attemptP_inv (people : List Person) (pl0 : List Pair)
    (hGood : ∀ q ∈ pl0, q.1 ∈ people.map Prod.fst ∧
      q.2 ∈ people.map Prod.fst ∧ q.1 ≠ q.2)
    (pl : List Pair) (hsub : ∀ q ∈ pl, q ∈ pl0) :
    ∃ c' pl',
      attemptP people pl = (c'.map (lookupP people), pl') ∧
      (∀ s ∈ c', s ∈ people.map Prod.fst) ∧ c'.Nodup ∧
      List.Chain' (fun a b => (a, b) ∈ pl0) c' ∧ List.Sublist pl' pl := by
  cases pl with
  | nil =>
    exact ⟨[], [], rfl, by simp, List.nodup_nil, List.chain'_nil, List.Sublist.refl []⟩
  | cons q rest =>
    rw [attemptP]
    by_cases hp : 0 < people.length
    · rw [if_pos hp]
      dsimp only
      have hq0 : q ∈ pl0 := hsub q (List.mem_cons_self _ _)
      obtain ⟨hq1n, hq2n, hqne⟩ := hGood q hq0
      have hqpair : ((q.1, q.2) : Pair) ∈ pl0 := hq0
      have hsub1 : ∀ r ∈ (q :: rest).filter
          (fun r => !(r.1 == q.1 || r.2 == q.1)), r ∈ pl0 :=
        fun r hr => hsub r (List.mem_filter.mp hr).1
      by_cases hfin : ([lookupP people q.1]).length = people.length - 1
      · rw [if_pos hfin]
        have hlen2 : people.length = 2 := by
          simp only [List.length_singleton] at hfin
          omega
        have hmemf : ∀ s ∈ [q.1, q.2], s ∈ people.map Prod.fst := by
          intro s hs
          rcases List.mem_cons.mp hs with rfl | hs'
          · exact hq1n
          · have : s = q.2 := by simpa using hs'
            subst this; exact hq2n
        obtain ⟨c', pl', heq, hp1, hp2, hp3, hp4⟩ :=
          chainLoopAux_inv people pl0 hGood _ _ [q.1, q.2] q.2
            (Nat.le_refl _) hsub1
            (fun habs _ _ => absurd habs (by simp [hlen2]))
            hmemf (by simp [hqne]) (List.chain'_pair.mpr hqpair)
            (fun habs _ _ => absurd habs (by simp [hlen2]))
        refine ⟨c', pl', ?_, hp1, hp2, hp3,
          hp4.trans (List.filter_sublist _)⟩
        unfold chainLoop
        rw [← heq]
        simp
      · rw [if_neg hfin]
        have havoid1 : ([q.1]).length < people.length →
            ∀ r ∈ (q :: rest).filter (fun r => !(r.1 == q.1 || r.2 == q.1)),
              r.1 ∉ [q.1] ∧ r.2 ∉ [q.1] := by
          intro _ r hr
          have hrp := (List.mem_filter.mp hr).2
          have h2 : ¬(r.1 = q.1) ∧ ¬(r.2 = q.1) := by simpa using hrp
          simp [h2.1, h2.2]
        have hlast1 : ([q.1]).length < people.length →
            ∀ x, ([q.1]).getLast? = some x → (x, q.2) ∈ pl0 := by
          intro _ x hx
          have hx' : q.1 = x := by simpa using hx
          subst hx'
          exact hqpair
        obtain ⟨c', pl', heq, hp1, hp2, hp3, hp4⟩ :=
          chainLoopAux_inv people pl0 hGood _ _ [q.1] q.2
            (Nat.le_refl _) hsub1 havoid1
            (by intro s hs; have : s = q.1 := by simpa using hs
                subst this; exact hq1n)
            (List.nodup_singleton _) (List.chain'_singleton _) hlast1
        refine ⟨c', pl', ?_, hp1, hp2, hp3,
          hp4.trans (List.filter_sublist _)⟩
        unfold chainLoop
        rw [← heq]
        simp
    · rw [if_neg hp]
      exact ⟨[], q :: rest, rfl, by simp, List.nodup_nil, List.chain'_nil,
        List.Sublist.refl _⟩

/-- Membership in the embedded `permutations(names, 2)`. -/
theorem perms2_mem (names : List String) (p : Pair) :
    p ∈ perms2 names ↔ p.1 ∈ names ∧ p.2 ∈ names ∧ p.1 ≠ p.2 := by
  constructor
  · intro h
    rcases List.mem_flatMap.mp h with ⟨a, ha, hmap⟩
    rcases List.mem_map.mp hmap with ⟨b, hb, rfl⟩
    obtain ⟨hbn, hbne⟩ := List.mem_filter.mp hb
    have : ¬ b = a := by simpa using hbne
    exact ⟨ha, hbn, fun hab => this (by simpa using hab.symm)⟩
  · rintro ⟨h1, h2, h3⟩
    refine List.mem_flatMap.mpr ⟨p.1, h1, List.mem_map.mpr ⟨p.2, ?_, ?_⟩⟩
    · exact List.mem_filter.mpr ⟨h2, by simpa using fun h => h3 h.symm⟩
    · rfl

theorem removeOldLoop_subset (hist : List (Nat × List Person)) :
    ∀ (ys : List Nat) (allp res : List Pair),
      removeOldLoop hist ys allp = some res → ∀ p ∈ res, p ∈ allp := by
  intro ys
  induction ys with
  | nil =>
    intro allp res h p hp
    rw [removeOldLoop] at h
    cases h
    exact hp
  | cons y ys ih =>
    intro allp res h p hp
    rw [removeOldLoop] at h
    cases hy : lookupYear hist y with
    | none => rw [hy] at h; cases h
    | some old =>
      rw [hy] at h
      have := ih _ _ h p hp
      exact (List.mem_filter.mp this).1

/-- Every pair of the computed compatibility list is an ordered pair of distinct
current participant names. -/
theorem computeAll_good (people : List Person) (hist : List (Nat × List Person))
    (unw : List (String × List String)) (nbYears curYear : Nat) (g : List Pair)
    (hg : computeAllPossibilities people hist unw nbYears curYear = some g) :
    ∀ q ∈ g, q.1 ∈ people.map Prod.fst ∧ q.2 ∈ people.map Prod.fst ∧ q.1 ≠ q.2 := by
  intro q hq
  rw [computeAllPossibilities] at hg
  cases hrm : removeOldLoop hist (histYears curYear nbYears)
      (perms2 (people.map Prod.fst)) with
  | none => rw [hrm] at hg; cases hg
  | some allp =>
    rw [hrm] at hg
    cases hg
    have h1 : q ∈ allp := (List.mem_filter.mp hq).1
    have h2 := removeOldLoop_subset hist _ _ _ hrm q h1
    exact (perms2_mem _ q).mp h2

/-- Membership after the history-removal loop: a pair survives iff it was there
and is not a cyclic pair of any successfully loaded requested edition. -/
theorem removeOldLoop_mem (hist : List (Nat × List Person)) :
    ∀ (ys : List Nat) (allp res : List Pair),
      removeOldLoop hist ys allp = some res →
      ∀ p : Pair, (p ∈ res ↔ p ∈ allp ∧
        ∀ y ∈ ys, ∀ old, lookupYear hist y = some old →
          p ∉ cyclePairs (old.map Prod.fst)) := by
  intro ys
  induction ys with
  | nil =>
    intro allp res h p
    rw [removeOldLoop] at h
    cases h
    simp
  | cons y ys ih =>
    intro allp res h p
    rw [removeOldLoop] at h
    cases hy : lookupYear hist y with
    | none => rw [hy] at h; cases h
    | some old =>
      rw [hy] at h
      have hmem := ih _ _ h p
      constructor
      · intro hp
        obtain ⟨hfil, hrest⟩ := hmem.mp hp
        obtain ⟨hallp, hnotin⟩ := List.mem_filter.mp hfil
        have hnotin' : p ∉ cyclePairs (old.map Prod.fst) := by
          simpa using hnotin
        refine ⟨hallp, ?_⟩
        intro y' hy' old' hold'
        rcases List.mem_cons.mp hy' with rfl | hy''
        · rw [hy] at hold'
          cases hold'
          exact hnotin'
        · exact hrest y' hy'' old' hold'
      · rintro ⟨hallp, hcond⟩
        apply hmem.mpr
        refine ⟨List.mem_filter.mpr ⟨hallp, ?_⟩,
          fun y' hy' => hcond y' (List.mem_cons_of_mem _ hy')⟩
        have := hcond y (List.mem_cons_self _ _) old hy
        simpa using this

theorem removeOldLoop_isSome (hist : List (Nat × List Person)) :
    ∀ (ys : List Nat) (allp : List Pair),
      (∀ y ∈ ys, (lookupYear hist y).isSome) →
      (removeOldLoop hist ys allp).isSome := by
  intro ys
  induction ys with
  | nil => intro allp _; rw [removeOldLoop]; rfl
  | cons y ys ih =>
    intro allp hall
    rw [removeOldLoop]
    cases hy : lookupYear hist y with
    | none =>
      exact absurd (hall y (List.mem_cons_self _ _)) (by simp [hy])
    | some old =>
      exact ih _ (fun y' h => hall y' (List.mem_cons_of_mem _ h))

/-- The retry-loop relation agrees with the executable retry loop: each run of
the function is a derivation of the relation. -/
theorem runSearch_of_searchLoop (people : List Person) :
    ∀ (fuel : Nat) (pl : List Pair),
      RunSearch people pl fuel (searchLoop people pl fuel).1 := by
  intro fuel
  induction fuel with
  | zero => intro pl; exact RunSearch.exhausted pl
  | succ fuel ih =>
    intro pl
    by_cases hlen : (attemptP people pl).1.length = people.length
    · have heval : (searchLoop people pl (fuel + 1)).1
          = some (attemptP people pl).1 := by
        simp only [searchLoop]
        rw [if_pos hlen]
      rw [heval]
      exact RunSearch.success rfl hlen
    · have heval : (searchLoop people pl (fuel + 1)).1
          = (searchLoop people (attemptP people pl).2 fuel).1 := by
        simp only [searchLoop]
        rw [if_neg hlen]
      rw [heval]
      exact RunSearch.failure rfl hlen (ih _)

/-- Extracting the names of a chain mapped through the participant lookup gives
back the chain, provided every chain name is a participant name. -/
theorem resNames_map (people : List Person) (c : List String)
    (h : ∀ s ∈ c, s ∈ people.map Prod.fst) :
    resNames (c.map (lookupP people)) = c := by
  induction c with
  | nil => rfl
  | cons s c ih =>
    obtain ⟨per, hfind, hname, _⟩ :=
      lookupP_eq_some people s (h s (List.mem_cons_self _ _))
    have ih' := ih (fun t ht => h t (List.mem_cons_of_mem _ ht))
    simp only [resNames] at ih' ⊢
    simp [List.filterMap_cons, hfind, hname, ih']

/-! ### Concrete instances used by witnesses and counterexamples -/

/-- Two participants. -/
def peopleAB : List Person := [("A", "a"), ("B", "b")]

/-- Three participants. -/
def peopleABC : List Person := [("A", "a"), ("B", "b"), ("C", "c")]

/-- Mutual exclusion of every ordered pair among the three participants:
the compatibility graph has no edges at all. -/
def unwantedAll3 : List (String × List String) :=
  [("A", ["B", "C"]), ("B", ["A", "C"]), ("C", ["A", "B"])]

/-- Four participants. -/
def peopleABCD : List Person :=
  [("A", "a"), ("B", "b"), ("C", "c"), ("D", "d")]

/-- Unwanted lists shaping the 4-node graph with edges
A→B, A→C, B→C, C→D and D→A: the Hamiltonian cycle A,B,C,D plus the chord A→C. -/
def unwanted4 : List (String × List String) :=
  [("A", ["D"]), ("B", ["A", "D"]), ("C", ["A", "B"]), ("D", ["B", "C"])]

/-- The 4-node compatibility list as produced by the graph builder. -/
def graph4 : List Pair :=
  [("A", "B"), ("A", "C"), ("B", "C"), ("C", "D"), ("D", "A")]

/-- The same edge list in a shuffled order that begins with the chord A→C. -/
def graph4shuffled : List Pair :=
  [("A", "C"), ("A", "B"), ("B", "C"), ("C", "D"), ("D", "A")]

/-- One participant whose history entry names people absent from the current
participant set. -/
def histForeign : List (Nat × List Person) := [(2024, [("Z", "z"), ("Q", "q")])]

/-- On the adversarially shuffled 4-node graph, the first attempt follows the
chord, strands the chain, leaves the candidate list empty, and every one of the
remaining 999 attempts then runs on the empty leftover list. -/
theorem graph4_search_fails :
    searchLoop peopleABCD graph4shuffled maxIteration
      = (none, [], maxIteration) := by
  have hstep : maxIteration = 999 + 1 := rfl
  rw [hstep, searchLoop]
  dsimp only
  have hatt : attemptP peopleABCD graph4shuffled
      = ([some ("A", "a"), some ("C", "c")], []) := rfl
  rw [hatt]
  rw [if_neg (by decide :
    ¬ (([some (("A", "a") : Person), some ("C", "c")],
        ([] : List Pair)).1).length = peopleABCD.length)]
  rw [searchLoop_empty_pl peopleABCD (by decide) 999]

/-! ### Claim theorems -/

/-- C5: the pair list computed by `compute_all_possibilities` consists exactly
of the ordered pairs of distinct current participant names that are neither a
cyclically consecutive pair of any loaded recent edition nor an unwanted pair.
(The embedding is a pure function of its inputs, matching the no-side-effect
part of the claim.) -/
theorem computeAll_membership (people : List Person)
    (hist : List (Nat × List Person)) (unw : List (String × List String))
    (nbYears curYear : Nat) (res : List Pair)
    (h : computeAllPossibilities people hist unw nbYears curYear = some res)
    (p : Pair) :
    p ∈ res ↔
      (p.1 ∈ people.map Prod.fst ∧ p.2 ∈ people.map Prod.fst ∧ p.1 ≠ p.2 ∧
        (∀ y ∈ histYears curYear nbYears, ∀ old, lookupYear hist y = some old →
          p ∉ cyclePairs (old.map Prod.fst)) ∧
        p ∉ unwantedPairs unw) := by
  rw [computeAllPossibilities] at h
  cases hrm : removeOldLoop hist (histYears curYear nbYears)
      (perms2 (people.map Prod.fst)) with
  | none => rw [hrm] at h; cases h
  | some allp =>
    rw [hrm] at h
    cases h
    constructor
    · intro hp
      obtain ⟨hin, hnotun⟩ := List.mem_filter.mp hp
      obtain ⟨hperm, hcond⟩ :=
        (removeOldLoop_mem hist _ _ _ hrm p).mp hin
      obtain ⟨h1, h2, h3⟩ := (perms2_mem _ p).mp hperm
      exact ⟨h1, h2, h3, hcond, by simpa using hnotun⟩
    · rintro ⟨h1, h2, h3, hcond, hun⟩
      exact List.mem_filter.mpr
        ⟨(removeOldLoop_mem hist _ _ _ hrm p).mpr
          ⟨(perms2_mem _ p).mpr ⟨h1, h2, h3⟩, hcond⟩, by simpa using hun⟩

/-- Witness for C5 at a concrete input: two participants, no history, no
unwanted pairs; the pair (A, B) is in the computed list. -/
theorem computeAll_membership_witness :
    ("A", "B") ∈ [(("A", "B") : Pair), ("B", "A")] :=
  (computeAll_membership peopleAB [] [] 0 2025 [("A", "B"), ("B", "A")] rfl
    ("A", "B")).mpr
    ⟨by decide, by decide, by decide, by simp [histYears], by decide⟩

/-- C6: when the compatibility graph has no edges, the search performs exactly
`max_iteration = 1000` attempts, never returns a spurious success, and ends in
the terminal failure path (`sys.exit(1)`, modelled as `none`). -/
theorem infeasible_exhausts_all_attempts (people : List Person)
    (hist : List (Nat × List Person)) (unw : List (String × List String))
    (nbYears curYear : Nat)
    (_hg : computeAllPossibilities people hist unw nbYears curYear = some [])
    (hp : 0 < people.length) :
    santasList people [] = none ∧
      (searchLoop people [] maxIteration).2.2 = maxIteration := by
  have h := searchLoop_empty_pl people (by omega) maxIteration
  exact ⟨by rw [santasList, h], by rw [h]⟩

/-- Witness for C6: three participants excluding each other entirely produce an
empty compatibility list; the search runs its full 1000 attempts and fails. -/
theorem infeasible_exhausts_all_attempts_witness :
    computeAllPossibilities peopleABC [] unwantedAll3 0 2025 = some [] ∧
    santasList peopleABC [] = none ∧
    (searchLoop peopleABC [] maxIteration).2.2 = maxIteration :=
  ⟨rfl,
   (infeasible_exhausts_all_attempts peopleABC [] unwantedAll3 0 2025 rfl
     (by decide)).1,
   (infeasible_exhausts_all_attempts peopleABC [] unwantedAll3 0 2025 rfl
     (by decide)).2⟩

/-- C7 counterexample: with zero participants the engine does not fail at all:
`get_people` merely prints an error and returns an empty list, and
`get_santas_list` immediately returns that empty list as a successful result
(the success test `len(list_santas) == len(list_people)` is `0 == 0`). -/
theorem undersized_input_counterexample :
    computeAllPossibilities [] [] [] 0 2025 = some [] ∧
      santasList [] [] = some [] :=
  ⟨rfl, rfl⟩

/-- C7 amended: no invalid-input check exists for fewer than 2 participants.
With zero participants every candidate list leads to an immediate "successful"
empty assignment; with one participant the candidate list is empty, so the
search runs all 1000 attempts and aborts through the infeasible path instead
of failing fast with an invalid-input condition. -/
theorem undersized_input_behavior :
    (∀ pl, santasList [] pl = some []) ∧
    (∀ (p : Person) (hist : List (Nat × List Person))
        (unw : List (String × List String)) (y : Nat),
      computeAllPossibilities [p] hist unw 0 y = some []) ∧
    (∀ p : Person, santasList [p] [] = none ∧
      (searchLoop [p] [] maxIteration).2.2 = maxIteration) := by
  refine ⟨?_, ?_, ?_⟩
  · intro pl
    cases pl with
    | nil => rfl
    | cons q rest => rfl
  · intro p hist unw y
    have hper : perms2 ([p].map Prod.fst) = [] := by
      simp [perms2]
    rw [computeAllPossibilities, histYears, List.range_zero, List.map_nil,
      removeOldLoop, hper]
    rfl
  · intro p
    have h := searchLoop_empty_pl [p] (by simp) maxIteration
    exact ⟨by rw [santasList, h], by rw [h]⟩

/-- C8 counterexample: a history shorter than the requested number of editions
is not skipped: looking up the absent year raises `KeyError`
(`yaml.load(info)[input_sublist]`), aborting the run — modelled as `none`. -/
theorem absent_edition_aborts :
    computeAllPossibilities peopleAB [] [] 1 2025 = none := rfl

/-- C8 amended: a loaded edition that references participants no longer present
never aborts the run (its pairs simply cannot match pairs of current names),
but an edition absent from the history file does abort it: the computation
succeeds exactly when every requested year is present. -/
theorem history_tolerates_foreign_names (people : List Person)
    (hist : List (Nat × List Person)) (unw : List (String × List String))
    (nbYears curYear : Nat)
    (hall : ∀ y ∈ histYears curYear nbYears, (lookupYear hist y).isSome) :
    (computeAllPossibilities people hist unw nbYears curYear).isSome := by
  rw [computeAllPossibilities]
  cases hrm : removeOldLoop hist (histYears curYear nbYears)
      (perms2 (people.map Prod.fst)) with
  | none =>
    have hs := removeOldLoop_isSome hist _ (perms2 (people.map Prod.fst)) hall
    rw [hrm] at hs
    simp at hs
  | some allp => rfl

/-- Witness for C8: the single requested edition is present but mentions only
participants absent from the current set; the computation still succeeds. -/
theorem history_tolerates_foreign_names_witness :
    (∀ y ∈ histYears 2025 1, (lookupYear histForeign y).isSome) ∧
    (computeAllPossibilities peopleAB histForeign [] 1 2025).isSome :=
  ⟨by decide,
   history_tolerates_foreign_names peopleAB histForeign [] 1 2025 (by decide)⟩

/-- C9: recording the same assignment under the same edition twice yields the
same history as recording it once — `data.update` replaces the existing entry
for the edition rather than duplicating it. -/
theorem record_idempotent (data : List (Nat × List Person)) (year : Nat)
    (l : List Person) :
    savePeople (savePeople data year l) year l = savePeople data year l := by
  by_cases h : data.any (fun e => e.1 == year)
  · have hinner : savePeople data year l
        = data.map (fun e => if e.1 == year then (e.1, l) else e) := by
      rw [savePeople, if_pos h]
    rcases List.any_eq_true.mp h with ⟨e, he, heq⟩
    have hkey : (data.map (fun e => if e.1 == year then (e.1, l) else e)).any
        (fun e => e.1 == year) := by
      exact List.any_eq_true.mpr
        ⟨(e.1, l), List.mem_map.mpr ⟨e, he, by rw [if_pos heq]⟩, heq⟩
    rw [hinner, savePeople, if_pos hkey, List.map_map]
    apply List.map_congr_left
    intro a _
    by_cases ha : a.1 = year
    · simp [ha]
    · simp [ha]
  · have hinner : savePeople data year l = data ++ [(year, l)] := by
      rw [savePeople, if_neg h]
    have hkey : (data ++ [(year, l)]).any (fun e => e.1 == year) := by
      simp [List.any_append]
    rw [hinner, savePeople, if_pos hkey, List.map_append]
    have h1 : data.map (fun e => if e.1 == year then (e.1, l) else e) = data := by
      conv_rhs => rw [← List.map_id data]
      apply List.map_congr_left
      intro a ha
      have hne : ¬ (a.1 == year) = true := by
        intro hcon
        exact h (List.any_eq_true.mpr ⟨a, ha, hcon⟩)
      simp [hne]
    rw [h1]
    simp

/-- C10: with the random source fixed (hence the same shuffled candidate list),
any two runs of the retry loop on identical inputs produce identical outcomes:
the big-step run relation is deterministic. -/
theorem search_deterministic (people : List Person) (pl : List Pair)
    (fuel : Nat) (r1 r2 : Option (List (Option Person)))
    (h1 : RunSearch people pl fuel r1) (h2 : RunSearch people pl fuel r2) :
    r1 = r2 := by
  induction h1 generalizing r2 with
  | exhausted pl =>
    cases h2
    rfl
  | success hatt hlen =>
    cases h2 with
    | success hatt2 hlen2 =>
      rw [hatt] at hatt2
      cases hatt2
      rfl
    | failure hatt2 hlen2 hrec2 =>
      rw [hatt] at hatt2
      cases hatt2
      exact absurd hlen hlen2
  | failure hatt hlen hrec ih =>
    cases h2 with
    | success hatt2 hlen2 =>
      rw [hatt] at hatt2
      cases hatt2
      exact absurd hlen2 hlen
    | failure hatt2 hlen2 hrec2 =>
      rw [hatt] at hatt2
      cases hatt2
      exact ih _ hrec2

/-- Witness for C10: two derivations of the same concrete run (obtained from
the executable loop) are forced to the same outcome. -/
theorem search_deterministic_witness :
    (searchLoop peopleAB [("A", "B"), ("B", "A")] maxIteration).1
      = (searchLoop peopleAB [("A", "B"), ("B", "A")] maxIteration).1 :=
  search_deterministic peopleAB [("A", "B"), ("B", "A")] maxIteration _ _
    (runSearch_of_searchLoop peopleAB maxIteration [("A", "B"), ("B", "A")])
    (runSearch_of_searchLoop peopleAB maxIteration [("A", "B"), ("B", "A")])

/-- C1 counterexample: with participants A and B and the unwanted pair (B, A),
the compatibility graph is the single edge A→B; the search nevertheless
returns the cycle [A, B], whose closing pair (B, A) — last placed participant
back to the first — is not an edge of the graph.  The code appends the final
participant at `len(list_santas) == len(list_people) - 1` without ever testing
the closing edge. -/
theorem closing_edge_unchecked :
    computeAllPossibilities peopleAB [] [("B", ["A"])] 0 2025
      = some [("A", "B")] ∧
    santasList peopleAB [("A", "B")]
      = some [some ("A", "a"), some ("B", "b")] ∧
    resNames [some ("A", "a"), some ("B", "b")] = ["A", "B"] ∧
    cyclePairs ["A", "B"] = [("A", "B"), ("B", "A")] ∧
    (("B", "A") : Pair) ∉ [(("A", "B") : Pair)] :=
  ⟨rfl, rfl, rfl, rfl, by decide⟩

/-- C1 amended: every consecutive giver-receiver pair of a returned assignment
other than the closing pair (from the last placed participant back to the
first) is an edge of the compatibility graph; the closing pair is never
checked and may be absent. -/
theorem consecutive_pairs_are_edges (people : List Person)
    (hist : List (Nat × List Person)) (unw : List (String × List String))
    (nbYears curYear : Nat) (g pl : List Pair) (res : List (Option Person))
    (hg : computeAllPossibilities people hist unw nbYears curYear = some g)
    (hperm : List.Perm pl g)
    (hres : santasList people pl = some res) :
    List.Chain' (fun a b => (a, b) ∈ g) (resNames res) := by
  have hGood := computeAll_good people hist unw nbYears curYear g hg
  rw [santasList] at hres
  obtain ⟨plIn, hin, hval, hlen⟩ :=
    searchLoop_some_inv people maxIteration pl res hres
  obtain ⟨c', pl', heq, hmem, _, hch, _⟩ :=
    attemptP_inv people g hGood plIn (fun q hq => hperm.subset (hin q hq))
  have hres' : res = c'.map (lookupP people) := by
    rw [heq] at hval
    exact hval.symm
  rw [hres', resNames_map people c' hmem]
  exact hch

/-- Witness for the amended C1: with the full 2-node graph the returned cycle's
non-closing consecutive pair A→B is an edge of the graph. -/
theorem consecutive_pairs_are_edges_witness :
    List.Chain' (fun a b => (a, b) ∈ [(("A", "B") : Pair), ("B", "A")])
      (resNames [some ("A", "a"), some ("B", "b")]) :=
  consecutive_pairs_are_edges peopleAB [] [] 0 2025
    [("A", "B"), ("B", "A")] [("A", "B"), ("B", "A")]
    [some ("A", "a"), some ("B", "b")] rfl (List.Perm.refl _) rfl

/-- C2: whenever the search returns a list, that list is exactly the full
participant list up to order: it has the participants' length, contains no
`None` placeholder, and its entries are `some` of a permutation of the
participant list (no duplicates, no omissions). -/
theorem returned_assignment_is_permutation (people : List Person)
    (hist : List (Nat × List Person)) (unw : List (String × List String))
    (nbYears curYear : Nat) (g pl : List Pair) (res : List (Option Person))
    (_hnd : (people.map Prod.fst).Nodup)
    (hg : computeAllPossibilities people hist unw nbYears curYear = some g)
    (hperm : List.Perm pl g)
    (hres : santasList people pl = some res) :
    res.length = people.length ∧ (∀ o ∈ res, o.isSome) ∧
      ∃ ps : List Person, res = ps.map some ∧ List.Perm ps people := by
  have hGood := computeAll_good people hist unw nbYears curYear g hg
  rw [santasList] at hres
  obtain ⟨plIn, hin, hval, hlen⟩ :=
    searchLoop_some_inv people maxIteration pl res hres
  obtain ⟨c', pl', heq, hmem, hndc, hch, _⟩ :=
    attemptP_inv people g hGood plIn (fun q hq => hperm.subset (hin q hq))
  have hres' : res = c'.map (lookupP people) := by
    rw [heq] at hval
    exact hval.symm
  obtain ⟨ps, hmap, hfst, hsubp⟩ := map_lookupP people c' hmem
  have hresps : res = ps.map some := by rw [hres', hmap]
  refine ⟨hlen, ?_, ps, hresps, ?_⟩
  · intro o ho
    rw [hresps] at ho
    rcases List.mem_map.mp ho with ⟨x, _, rfl⟩
    rfl
  · have hndps : ps.Nodup := List.Nodup.of_map Prod.fst (hfst ▸ hndc)
    have hpsub : ps ⊆ people := fun x hx => hsubp x hx
    obtain ⟨lmid, hl1, hl2⟩ := List.subperm_of_subset hndps hpsub
    have hlenps : ps.length = people.length := by
      have hr : res.length = ps.length := by
        rw [hresps, List.length_map]
      omega
    have hll : lmid.length = people.length := by
      have := hl1.length_eq
      omega
    have hlp : lmid = people := hl2.eq_of_length hll
    rw [hlp] at hl1
    exact hl1.symm

/-- Witness for C2: the concrete 2-participant run returns exactly the two
participants, in some order, with no `None` entries. -/
theorem returned_assignment_is_permutation_witness :
    santasList peopleAB [("A", "B"), ("B", "A")]
      = some [some ("A", "a"), some ("B", "b")] ∧
    ([some (("A", "a") : Person), some ("B", "b")].length = peopleAB.length ∧
      (∀ o ∈ [some (("A", "a") : Person), some ("B", "b")], o.isSome) ∧
      ∃ ps : List Person,
        [some (("A", "a") : Person), some ("B", "b")] = ps.map some ∧
          List.Perm ps peopleAB) :=
  ⟨rfl,
   returned_assignment_is_permutation peopleAB [] [] 0 2025
     [("A", "B"), ("B", "A")] [("A", "B"), ("B", "A")]
     [some ("A", "a"), some ("B", "b")] (by decide) rfl (List.Perm.refl _) rfl⟩

/-- C3 counterexample: the list is shuffled once, before the loop, and never
reshuffled or restored between attempts.  On the 4-node graph shuffled to begin
with the chord A→C, the first attempt fails and leaves the candidate list
empty, so all 999 remaining attempts run on the empty leftover — not on the
full compatibility graph in a fresh random order — and the search fails even
though the graph (a permutation of the shuffled list) contains the Hamiltonian
cycle A,B,C,D. -/
theorem retry_without_reshuffle :
    computeAllPossibilities peopleABCD [] unwanted4 0 2025 = some graph4 ∧
    List.Perm graph4shuffled graph4 ∧
    (attemptP peopleABCD graph4shuffled).1.length ≠ peopleABCD.length ∧
    (attemptP peopleABCD graph4shuffled).2 = [] ∧
    graph4shuffled ≠ [] ∧
    santasList peopleABCD graph4shuffled = none := by
  refine ⟨rfl, by decide, by decide, rfl, by decide, ?_⟩
  rw [santasList, graph4_search_fails]

/-- C3 amended: the search does retry up to the attempt bound, but between
attempts the candidate list is not reshuffled or restored: every later attempt
runs on a sublist of the previously left-over list, and the attempt count
never exceeds the bound. -/
theorem retry_bound_and_leftover (people : List Person) (pl : List Pair)
    (fuel : Nat) :
    List.Sublist (searchLoop people pl fuel).2.1 pl ∧
      (searchLoop people pl fuel).2.2 ≤ fuel :=
  ⟨searchLoop_pl_sublist people fuel pl, searchLoop_count_le people fuel pl⟩

/-- C4: within one invocation, the candidate pair list only ever loses
elements — each attempt returns a sublist of its input, and the list threaded
through the whole retry loop stays a sublist of the shuffled input — and the
search can fail although the original compatibility graph contains a valid
Hamiltonian cycle: on the 4-node instance every cyclic pair of A,B,C,D is an
edge of the computed graph, yet the run aborts. -/
theorem possible_list_only_shrinks :
    (∀ (people : List Person) (pl : List Pair),
      List.Sublist (attemptP people pl).2 pl) ∧
    (∀ (people : List Person) (pl : List Pair) (fuel : Nat),
      List.Sublist (searchLoop people pl fuel).2.1 pl) ∧
    (computeAllPossibilities peopleABCD [] unwanted4 0 2025 = some graph4 ∧
      List.Perm graph4shuffled graph4 ∧
      (∀ e ∈ cyclePairs ["A", "B", "C", "D"], e ∈ graph4) ∧
      santasList peopleABCD graph4shuffled = none) := by
  refine ⟨fun people pl => attemptP_sublist people pl,
    fun people fuel pl => searchLoop_pl_sublist people pl fuel,
    rfl, by decide, by decide, ?_⟩
  rw [santasList, graph4_search_fails]

end SecretSanta
